import Mathlib

/-!
Shallow embedding of `src/shuffle_scores.cpp` (the scran shuffle-score
computation) and proofs of the specification claims about it.

Modelling conventions:
* expression values and thresholds are rationals (`ℚ`), an exact model of the
  real-valued arithmetic the specification describes;
* C++ `int` counters (`was_first`, `was_total`) are `Nat` (they only ever
  increase from 0), while externally supplied integer scalars
  (`minpairs`, `iter`, `miniter`, marker and gene indices) are `Int`,
  matching their signed C++ types;
* the optional `threshold` argument (`NA_REAL` default in C++) is an
  `Option ℚ`;
* the R random source is an explicit state `σ` threaded through every
  operation, and the external `Rx_shuffle` primitive is a parameter
  `shuffle : σ → List ℚ → List ℚ × σ`;
* the beachmat matrix is a `MatrixProvider`: a feature count plus a total
  column-access function (column access at an out-of-range column is the
  provider's business, as in the source, where it is forwarded unchecked);
* the fatal `std::runtime_error` throws become `Except.error`.
-/

namespace ScranShuffle

/-- Result of `get_proportion`: `NA_REAL` (missing), the sentinel `-1`
(below threshold), the sentinel `1` (at or above threshold), or the
unthresholded proportion itself. -/
inductive ScoreResult where
  | missing : ScoreResult
  | below : ScoreResult
  | atOrAbove : ScoreResult
  | value : ℚ → ScoreResult
deriving DecidableEq

/-- The numeric double actually returned by the C++ `get_proportion`:
`NA_REAL` is `none`, the sentinels are `-1` and `1`, and a plain
proportion is itself.  Used by the engine's `ISNA(curscore)` test. -/
def ScoreResult.toNum : ScoreResult → Option ℚ
  | .missing => none
  | .below => some (-1)
  | .atOrAbove => some 1
  | .value q => some q

/-- One step of the counter update in `get_proportion` (lines 13-18 of the
source): fetch the two compared values, skip ties, increment `was_total`
for a non-tie and `was_first` when the first value is strictly greater.
`c = (was_first, was_total)`. -/
def tallyPair (expr : List ℚ) (p : Nat × Nat) (c : Nat × Nat) : Nat × Nat :=
  if expr.getD p.1 0 = expr.getD p.2 0 then c
  else if expr.getD p.2 0 < expr.getD p.1 0 then (c.1 + 1, c.2 + 1)
  else (c.1, c.2 + 1)

/-- The final counters produced by running the loop of `get_proportion`
over a pair list with no early exit, starting from counters `c`. -/
def countPairs (expr : List ℚ) (pairs : List (Nat × Nat)) (c : Nat × Nat) :
    Nat × Nat :=
  match pairs with
  | [] => c
  | p :: rest => countPairs expr rest (tallyPair expr p c)

/-- The early-termination test of `get_proportion` (lines 22-31 of the
source), evaluated after a pair has been processed: `wf, wt` are the
current `was_first, was_total` and `L` is `leftovers`, the number of pairs
not yet processed.  The test is only evaluated when `was_total >= minpairs`
and `was_total` is a multiple of 100; it returns `below` when even the best
remaining case stays under the threshold and `atOrAbove` when even the
worst remaining case stays over it, each with the source's ±1 safety
margin. -/
def exitCheck (minpairs : Int) (t : ℚ) (wf wt L : Nat) : Option ScoreResult :=
  if minpairs ≤ (wt : Int) ∧ wt % 100 = 0 then
    if ((wf + L + 1 : Nat) : ℚ) / ((wt + L : Nat) : ℚ) < t then some .below
    else if 0 < wf ∧ t < ((wf - 1 : Nat) : ℚ) / ((wt + L : Nat) : ℚ) then
      some .atOrAbove
    else none
  else none

/-- The main loop of `get_proportion` (lines 12-33 of the source):
process the pairs in list order, updating the counters `c`; when a
threshold is supplied, run `exitCheck` after every pair and return its
verdict as soon as it fires.  Returns either an early verdict or the final
counters. -/
def scoreLoop (expr : List ℚ) (minpairs : Int) (threshold : Option ℚ)
    (pairs : List (Nat × Nat)) (c : Nat × Nat) : ScoreResult ⊕ (Nat × Nat) :=
  match pairs with
  | [] => Sum.inr c
  | p :: rest =>
    let c' := tallyPair expr p c
    match threshold with
    | none => scoreLoop expr minpairs none rest c'
    | some t =>
      match exitCheck minpairs t c'.1 c'.2 rest.length with
      | some r => Sum.inl r
      | none => scoreLoop expr minpairs (some t) rest c'

/-- `get_proportion` (lines 4-41 of the source): run the loop from zero
counters; on normal completion return `missing` when fewer than `minpairs`
pairs were compared, otherwise the proportion `was_first / was_total`,
classified against the threshold when one was supplied. -/
def get_proportion (expr : List ℚ) (minpairs : Int) (pairs : List (Nat × Nat))
    (threshold : Option ℚ) : ScoreResult :=
  match scoreLoop expr minpairs threshold pairs (0, 0) with
  | Sum.inl r => r
  | Sum.inr c =>
    if (c.2 : Int) < minpairs then .missing
    else
      let output : ℚ := (c.1 : ℚ) / (c.2 : ℚ)
      match threshold with
      | some t => if output < t then .below else .atOrAbove
      | none => .value output

/-- The beachmat matrix provider, an external collaborator: a feature
(row) count and total column access (`get_const_col`), giving the value of
gene `g` in the column with (0-based) index `c`.  Out-of-range column
indices are the provider's concern; the engine forwards them unchecked. -/
structure MatrixProvider where
  ngenes : Nat
  get_const_col : Int → Nat → ℚ

/-- The gather step of the engine (lines 83-87 of the source): fetch the
full column for external (1-based) sample id `c` by asking the provider
for column `c - 1`, then build the used-subset vector by indexing it with
`used` in order.  Indices in `used` have been validated to be in
`[0, ngenes)`, so the `Int.toNat` cast is exact on every reachable input. -/
def gatherSubset (mat : MatrixProvider) (used : List Int) (c : Int) : List ℚ :=
  used.map (fun u => mat.get_const_col (c - 1) u.toNat)

/-- The permutation-trial loop of one sample (lines 95-103 of the source):
run `n` trials; each trial shuffles the buffer in place (here: replaces it
by the shuffled copy, threading the random state), rescoring it against
the fixed observed threshold `t`; a non-`missing` score increments
`total`, a `below` score increments `below`.  Returns
`(below, total, final random state)`. -/
def runTrials {σ : Type} (shuffle : σ → List ℚ → List ℚ × σ) (minp : Int)
    (pairs : List (Nat × Nat)) (t : ℚ) :
    Nat → List ℚ → σ → Nat → Nat → Nat × Nat × σ
  | 0, _, st, below, total => (below, total, st)
  | n + 1, buf, st, below, total =>
    let s := shuffle st buf
    let r := get_proportion s.1 minp pairs (some t)
    runTrials shuffle minp pairs t n s.1 s.2
      (if r = .below then below + 1 else below)
      (if r = .missing then total else total + 1)

/-- The successive states of the trial buffer across the permutation loop:
entry `i` is the vector scored at trial `i`.  Each entry is the shuffle of
the previous one (the buffer is reused in place, never re-read from the
matrix). -/
def trialBuffers {σ : Type} (shuffle : σ → List ℚ → List ℚ × σ) :
    Nat → List ℚ → σ → List (List ℚ)
  | 0, _, _ => []
  | n + 1, buf, st =>
    let s := shuffle st buf
    s.1 :: trialBuffers shuffle n s.1 s.2

/-- The thresholded score of every trial of the permutation loop, in trial
order. -/
def trialScores {σ : Type} (shuffle : σ → List ℚ → List ℚ × σ) (minp : Int)
    (pairs : List (Nat × Nat)) (t : ℚ) (n : Nat) (buf : List ℚ) (st : σ) :
    List ScoreResult :=
  (trialBuffers shuffle n buf st).map (fun b => get_proportion b minp pairs (some t))

/-- Per-sample processing of the engine (lines 89-107 of the source):
compute the observed, unthresholded score of the gathered subset; if it is
`NA` the sample's output stays `NA` and no trials are run; otherwise run
`iter` trials against the observed score as threshold and output
`below / total` when at least `miniter` trials were valid, `NA`
otherwise.  Returns the sample's output and the final random state. -/
def processSample {σ : Type} (shuffle : σ → List ℚ → List ℚ × σ) (minp : Int)
    (pairs : List (Nat × Nat)) (nit minit : Int) (subset : List ℚ) (st : σ) :
    Option ℚ × σ :=
  match (get_proportion subset minp pairs none).toNum with
  | none => (none, st)
  | some curscore =>
    let res := runTrials shuffle minp pairs curscore nit.toNat subset st 0 0
    (if minit ≤ (res.2.1 : Int) then some ((res.1 : ℚ) / (res.2.1 : ℚ)) else none,
     res.2.2)

/-- The sample loop of the engine (lines 80-108 of the source): process
the requested sample ids in order, threading the random state, producing
one output per sample. -/
def engineLoop {σ : Type} (shuffle : σ → List ℚ → List ℚ × σ)
    (mat : MatrixProvider) (used : List Int) (pairs : List (Nat × Nat))
    (minp nit minit : Int) : List Int → σ → List (Option ℚ) × σ
  | [], st => ([], st)
  | c :: cs, st =>
    let r := processSample shuffle minp pairs nit minit (gatherSubset mat used c) st
    let rest := engineLoop shuffle mat used pairs minp nit minit cs r.2
    (r.1 :: rest.1, rest.2)

/-- `shuffle_scores_internal` (lines 44-111 of the source): validate the
marker and used-index inputs — mismatched marker lengths, a marker index
outside `[0, used.length)` or a used index outside `[0, ngenes)` throw
before any sample is processed — then run the sample loop.  The scalar
iteration arguments arrive already unmarshalled as `Int`s. -/
def shuffle_scores_internal {σ : Type} (shuffle : σ → List ℚ → List ℚ × σ)
    (mat : MatrixProvider) (mycells marker1 marker2 used : List Int)
    (nit minit minp : Int) (st : σ) : Except String (List (Option ℚ)) :=
  if marker1.length ≠ marker2.length then
    Except.error "vectors of markers must be of the same length"
  else
    match (marker1.zip marker2).find? (fun p =>
        decide (p.1 < 0 ∨ (used.length : Int) ≤ p.1 ∨
                p.2 < 0 ∨ (used.length : Int) ≤ p.2)) with
    | some p =>
      if p.1 < 0 ∨ (used.length : Int) ≤ p.1 then
        Except.error "first marker indices are out of range"
      else Except.error "second marker indices are out of range"
    | none =>
      match used.find? (fun u => decide (u < 0 ∨ (mat.ngenes : Int) ≤ u)) with
      | some _ => Except.error "used gene indices are out of range"
      | none =>
        let pairs := (marker1.zip marker2).map (fun p => (p.1.toNat, p.2.toNat))
        Except.ok (engineLoop shuffle mat used pairs minp nit minit mycells st).1

/-- The column loop of `auto_shuffle` (lines 147-152 of the source): each
iteration copies the current source into the next output column, shuffles
it in place, and makes it the source for the following column. -/
def autoShuffleCols {σ : Type} (shuffle : σ → List ℚ → List ℚ × σ) :
    Nat → List ℚ → σ → List (List ℚ) × σ
  | 0, _, st => ([], st)
  | n + 1, source, st =>
    let s := shuffle st source
    let rest := autoShuffleCols shuffle n s.1 s.2
    (s.1 :: rest.1, rest.2)

/-- `auto_shuffle` (lines 135-156 of the source): produce `nits` columns,
the first a shuffled copy of the input vector, each later one a shuffled
copy of the immediately preceding column. -/
def auto_shuffle {σ : Type} (shuffle : σ → List ℚ → List ℚ × σ)
    (invec : List ℚ) (nits : Int) (st : σ) : List (List ℚ) × σ :=
  autoShuffleCols shuffle nits.toNat invec st

/-- The trivial shuffle, used to instantiate the external primitive on
concrete witnesses: it returns the list unchanged. -/
def idShuffle : Unit → List ℚ → List ℚ × Unit := fun _ l => (l, ())

/-! ### Basic facts about the counter fold -/

theorem countPairs_cons (expr : List ℚ) (p : Nat × Nat) (rest : List (Nat × Nat))
    (c : Nat × Nat) :
    countPairs expr (p :: rest) c = countPairs expr rest (tallyPair expr p c) := rfl

theorem countPairs_append (expr : List ℚ) (l₁ l₂ : List (Nat × Nat)) (c : Nat × Nat) :
    countPairs expr (l₁ ++ l₂) c = countPairs expr l₂ (countPairs expr l₁ c) := by
  induction l₁ generalizing c with
  | nil => rfl
  | cons p rest ih => simp [countPairs_cons, ih]

theorem tallyPair_cases (expr : List ℚ) (p : Nat × Nat) (c : Nat × Nat) :
    tallyPair expr p c = c ∨ tallyPair expr p c = (c.1 + 1, c.2 + 1) ∨
      tallyPair expr p c = (c.1, c.2 + 1) := by
  unfold tallyPair
  split_ifs <;> simp

/-- Processing a pair list from counters `c` adds `e` to `was_first` and `d`
to `was_total` with `e ≤ d ≤ pairs.length`. -/
theorem countPairs_growth (expr : List ℚ) :
    ∀ (pairs : List (Nat × Nat)) (c : Nat × Nat),
      ∃ e d, (countPairs expr pairs c).1 = c.1 + e ∧
        (countPairs expr pairs c).2 = c.2 + d ∧ e ≤ d ∧ d ≤ pairs.length := by
  intro pairs
  induction pairs with
  | nil => exact fun c => ⟨0, 0, rfl, rfl, le_refl 0, by simp [countPairs]⟩
  | cons p rest ih =>
    intro c
    rw [countPairs_cons]
    rcases tallyPair_cases expr p c with h | h | h <;> rw [h] <;>
      simp only [List.length_cons]
    · obtain ⟨e, d, h1, h2, hed, hdl⟩ := ih c
      exact ⟨e, d, h1, h2, hed, by omega⟩
    · obtain ⟨e, d, h1, h2, hed, hdl⟩ := ih (c.1 + 1, c.2 + 1)
      simp only at h1 h2
      exact ⟨e + 1, d + 1, by omega, by omega, by omega, by omega⟩
    · obtain ⟨e, d, h1, h2, hed, hdl⟩ := ih (c.1, c.2 + 1)
      simp only at h1 h2
      exact ⟨e, d + 1, by omega, by omega, by omega, by omega⟩

/-- `was_first ≤ was_total` is preserved by the whole fold. -/
theorem countPairs_le (expr : List ℚ) (pairs : List (Nat × Nat)) (c : Nat × Nat)
    (hc : c.1 ≤ c.2) : (countPairs expr pairs c).1 ≤ (countPairs expr pairs c).2 := by
  obtain ⟨e, d, h1, h2, hed, _⟩ := countPairs_growth expr pairs c
  omega

theorem tallyPair_le (expr : List ℚ) (p : Nat × Nat) (c : Nat × Nat)
    (hc : c.1 ≤ c.2) : (tallyPair expr p c).1 ≤ (tallyPair expr p c).2 := by
  rcases tallyPair_cases expr p c with h | h | h <;> rw [h] <;> omega

/-! ### The loop without a threshold -/

/-- With no threshold supplied the loop never exits early: it always
returns the final counters of the full fold. -/
theorem scoreLoop_none (expr : List ℚ) (mp : Int) :
    ∀ (pairs : List (Nat × Nat)) (c : Nat × Nat),
      scoreLoop expr mp none pairs c = Sum.inr (countPairs expr pairs c) := by
  intro pairs
  induction pairs with
  | nil => intro c; rfl
  | cons p rest ih => intro c; rw [countPairs_cons]; exact ih (tallyPair expr p c)

/-- Characterization of the unthresholded scorer: it is `missing` exactly
when the fold compares fewer than `minpairs` pairs, and the exact
proportion otherwise. -/
theorem get_proportion_none_eq (expr : List ℚ) (mp : Int)
    (pairs : List (Nat × Nat)) :
    get_proportion expr mp pairs none =
      (if ((countPairs expr pairs (0, 0)).2 : Int) < mp then ScoreResult.missing
       else ScoreResult.value (((countPairs expr pairs (0, 0)).1 : ℚ) /
         ((countPairs expr pairs (0, 0)).2 : ℚ))) := by
  unfold get_proportion
  rw [scoreLoop_none]

/-! ### Soundness of the early-exit bounds -/

/-- If the optimistic bound `(wf + L + 1) / (wt + L)` is already under the
threshold, then every reachable final proportion `(wf + e) / (wt + d)`
(`e ≤ d ≤ L` more comparisons, at most `e` of them first-greater) is under
it as well. -/
theorem ratio_lt_of_optimistic (wf wt e d L : Nat) (t : ℚ)
    (hfw : wf ≤ wt) (hwt : 1 ≤ wt) (hed : e ≤ d) (hdL : d ≤ L)
    (h : ((wf + L + 1 : Nat) : ℚ) / ((wt + L : Nat) : ℚ) < t) :
    ((wf + e : Nat) : ℚ) / ((wt + d : Nat) : ℚ) < t := by
  have hd0 : (0 : ℚ) < ((wt + d : Nat) : ℚ) := by
    exact_mod_cast (by omega : 0 < wt + d)
  have hL0 : (0 : ℚ) < ((wt + L : Nat) : ℚ) := by
    exact_mod_cast (by omega : 0 < wt + L)
  rw [div_lt_iff₀ hd0]
  rw [div_lt_iff₀ hL0] at h
  have h' := mul_lt_mul_of_pos_right h hd0
  have key : (0 : ℚ) ≤ ((L : ℚ) - (d : ℚ)) * ((wt : ℚ) - (wf : ℚ)) := by
    have h1 : (d : ℚ) ≤ (L : ℚ) := by exact_mod_cast hdL
    have h2 : (wf : ℚ) ≤ (wt : ℚ) := by exact_mod_cast hfw
    nlinarith
  have he : (e : ℚ) ≤ (d : ℚ) := by exact_mod_cast hed
  push_cast at h' key he hd0 hL0 ⊢
  nlinarith [h', key, he, hd0, hL0, mul_nonneg (sub_nonneg.mpr he) hL0.le]

/-- If the pessimistic bound `(wf - 1) / (wt + L)` is already over the
threshold, then every reachable final proportion `(wf + e) / (wt + d)` is
over it as well. -/
theorem ratio_gt_of_pessimistic (wf wt e d L : Nat) (t : ℚ)
    (hwf : 1 ≤ wf) (hfw : wf ≤ wt) (hed : e ≤ d) (hdL : d ≤ L)
    (h : t < ((wf - 1 : Nat) : ℚ) / ((wt + L : Nat) : ℚ)) :
    t < ((wf + e : Nat) : ℚ) / ((wt + d : Nat) : ℚ) := by
  have hd0 : (0 : ℚ) < ((wt + d : Nat) : ℚ) := by
    exact_mod_cast (by omega : 0 < wt + d)
  have hL0 : (0 : ℚ) < ((wt + L : Nat) : ℚ) := by
    exact_mod_cast (by omega : 0 < wt + L)
  rw [lt_div_iff₀ hd0]
  rw [lt_div_iff₀ hL0] at h
  have hcast : ((wf - 1 : Nat) : ℚ) = (wf : ℚ) - 1 := by
    push_cast [hwf]; ring
  rw [hcast] at h
  have h' := mul_lt_mul_of_pos_right h hd0
  have key : (0 : ℚ) ≤ ((wf : ℚ) - 1) * ((L : ℚ) - (d : ℚ)) := by
    have h1 : (d : ℚ) ≤ (L : ℚ) := by exact_mod_cast hdL
    have h2 : (1 : ℚ) ≤ (wf : ℚ) := by exact_mod_cast hwf
    nlinarith
  have he : (0 : ℚ) ≤ (e : ℚ) := by positivity
  push_cast at h' key hd0 hL0 ⊢
  nlinarith [h', key, he, hd0, hL0, mul_nonneg he hL0.le]

/-- Trichotomy for the thresholded loop (`minpairs ≥ 1`): it either runs to
completion returning exactly the counters of the full fold, or exits early
with `below` while the full-fold proportion is strictly under the
threshold, or exits early with `atOrAbove` while the full-fold proportion
is strictly over it; in the early cases the full fold compares at least
`minpairs` pairs, so the full computation would not be `missing`. -/
theorem scoreLoop_some_spec (expr : List ℚ) (mp : Int) (t : ℚ) (hmp : 1 ≤ mp) :
    ∀ (pairs : List (Nat × Nat)) (c : Nat × Nat), c.1 ≤ c.2 →
      scoreLoop expr mp (some t) pairs c = Sum.inr (countPairs expr pairs c) ∨
      (scoreLoop expr mp (some t) pairs c = Sum.inl .below ∧
        mp ≤ ((countPairs expr pairs c).2 : Int) ∧
        ((countPairs expr pairs c).1 : ℚ) / ((countPairs expr pairs c).2 : ℚ) < t) ∨
      (scoreLoop expr mp (some t) pairs c = Sum.inl .atOrAbove ∧
        mp ≤ ((countPairs expr pairs c).2 : Int) ∧
        t < ((countPairs expr pairs c).1 : ℚ) / ((countPairs expr pairs c).2 : ℚ)) := by
  intro pairs
  induction pairs with
  | nil => intro c _; exact Or.inl rfl
  | cons p rest ih =>
    intro c hc
    have hc' : (tallyPair expr p c).1 ≤ (tallyPair expr p c).2 :=
      tallyPair_le expr p c hc
    rw [countPairs_cons]
    have hstep : scoreLoop expr mp (some t) (p :: rest) c =
        (match exitCheck mp t (tallyPair expr p c).1 (tallyPair expr p c).2
            rest.length with
         | some r => Sum.inl r
         | none => scoreLoop expr mp (some t) rest (tallyPair expr p c)) := rfl
    rw [hstep]
    rcases hE : exitCheck mp t (tallyPair expr p c).1 (tallyPair expr p c).2
        rest.length with _ | r
    · exact ih (tallyPair expr p c) hc'
    · -- the check fired: unpack which branch produced `r`
      obtain ⟨e, d, h1, h2, hed, hdl⟩ :=
        countPairs_growth expr rest (tallyPair expr p c)
      unfold exitCheck at hE
      split_ifs at hE with hguard hbelow habove
      · -- the `below` bound fired
        cases hE
        have hwt1 : 1 ≤ (tallyPair expr p c).2 := by omega
        refine Or.inr (Or.inl ⟨rfl, by omega, ?_⟩)
        rw [h1, h2]
        exact ratio_lt_of_optimistic (tallyPair expr p c).1 (tallyPair expr p c).2
          e d rest.length t hc' hwt1 hed hdl hbelow
      · -- the `atOrAbove` bound fired
        cases hE
        refine Or.inr (Or.inr ⟨rfl, by omega, ?_⟩)
        rw [h1, h2]
        exact ratio_gt_of_pessimistic (tallyPair expr p c).1 (tallyPair expr p c).2
          e d rest.length t habove.1 hc' hed hdl habove.2

/-- Characterization of the thresholded scorer (`minpairs ≥ 1`): whether
it exits early or not, the result it returns is the classification of the
full-fold proportion against the threshold, with `missing` exactly when
the full fold compares fewer than `minpairs` pairs. -/
theorem get_proportion_some_eq (expr : List ℚ) (mp : Int) (t : ℚ) (hmp : 1 ≤ mp)
    (pairs : List (Nat × Nat)) :
    get_proportion expr mp pairs (some t) =
      (if ((countPairs expr pairs (0, 0)).2 : Int) < mp then ScoreResult.missing
       else if ((countPairs expr pairs (0, 0)).1 : ℚ) /
           ((countPairs expr pairs (0, 0)).2 : ℚ) < t then ScoreResult.below
       else ScoreResult.atOrAbove) := by
  rcases scoreLoop_some_spec expr mp t hmp pairs (0, 0) (le_refl 0) with
    h | ⟨h, hT, hR⟩ | ⟨h, hT, hR⟩
  · unfold get_proportion
    rw [h]
  · unfold get_proportion
    rw [h, if_neg (by omega), if_pos hR]
  · unfold get_proportion
    rw [h, if_neg (by omega), if_neg (not_lt.mpr hR.le)]

/-! ### Claim theorems -/

/-- C1.  Early-stopping equivalence of the Proportion Scorer: for every
used-subset vector, positive `minpairs` (per the interface every scalar
count is a positive integer, and on that domain the rational embedding is
an exact model of the source's arithmetic), marker pair list and threshold
`t`, the thresholded call returns `missing` exactly when the unthresholded
call does, returns `below` exactly when the unthresholded proportion is
strictly less than `t`, and returns `atOrAbove` exactly when the
unthresholded proportion is at least `t` — so the early-exit branch never
changes the classification the full pass would produce. -/
theorem claim_early_stopping_equiv (expr : List ℚ) (mp : Int) (hmp : 1 ≤ mp)
    (pairs : List (Nat × Nat)) (t : ℚ) :
    (get_proportion expr mp pairs (some t) = .missing ↔
      get_proportion expr mp pairs none = .missing) ∧
    ∀ q : ℚ, get_proportion expr mp pairs none = .value q →
      ((get_proportion expr mp pairs (some t) = .below ↔ q < t) ∧
       (get_proportion expr mp pairs (some t) = .atOrAbove ↔ t ≤ q)) := by
  rw [get_proportion_none_eq, get_proportion_some_eq expr mp t hmp pairs]
  by_cases hT : ((countPairs expr pairs (0, 0)).2 : Int) < mp
  · rw [if_pos hT, if_pos hT]
    refine ⟨Iff.rfl, fun q hq => absurd hq (by simp)⟩
  · rw [if_neg hT, if_neg hT]
    constructor
    · constructor
      · intro h; split_ifs at h
      · intro h; simp at h
    · intro q hq
      injection hq with hq
      subst hq
      split_ifs with hlt
      · refine ⟨⟨fun _ => hlt, fun _ => rfl⟩, ?_, ?_⟩
        · intro h
          cases h
        · intro h
          exact absurd h (not_le.mpr hlt)
      · refine ⟨⟨?_, fun h => absurd h hlt⟩, ⟨fun _ => not_lt.mp hlt, fun _ => rfl⟩⟩
        intro h
        cases h

/-- Witness for C1 at a concrete input: the subset `[1, 0]` with the single
pair `(0, 1)` has unthresholded proportion `1`, so scoring it against the
threshold `1/2` classifies it `atOrAbove`. -/
theorem claim_early_stopping_equiv_witness :
    get_proportion [(1 : ℚ), 0] 1 [(0, 1)] (some (1 / 2)) = .atOrAbove :=
  ((claim_early_stopping_equiv [(1 : ℚ), 0] 1 (by norm_num) [(0, 1)] (1 / 2)).2 1
    (by rw [get_proportion_none_eq]; norm_num [countPairs, tallyPair])).2.mpr
    (by norm_num)

/-- C2.  Definition of the Proportion Scorer: the counters are the fold
that, in list order, skips a tied pair, counts a differing pair into
`was_total`, and additionally counts it into `was_first` when the first
compared value is strictly greater; the unthresholded scorer returns
`missing` exactly when the final `was_total` is below `minpairs` and the
proportion `was_first / was_total` otherwise, and that proportion lies in
`[0, 1]`. -/
theorem claim_scorer_definition (expr : List ℚ) (mp : Int) (hmp : 1 ≤ mp)
    (pairs : List (Nat × Nat)) :
    (get_proportion expr mp pairs none =
      (if ((countPairs expr pairs (0, 0)).2 : Int) < mp then ScoreResult.missing
       else ScoreResult.value (((countPairs expr pairs (0, 0)).1 : ℚ) /
         ((countPairs expr pairs (0, 0)).2 : ℚ)))) ∧
    (∀ (ps : List (Nat × Nat)) (i j : Nat),
      countPairs expr (ps ++ [(i, j)]) (0, 0) =
        (if expr.getD i 0 = expr.getD j 0 then countPairs expr ps (0, 0)
         else if expr.getD j 0 < expr.getD i 0 then
           ((countPairs expr ps (0, 0)).1 + 1, (countPairs expr ps (0, 0)).2 + 1)
         else ((countPairs expr ps (0, 0)).1, (countPairs expr ps (0, 0)).2 + 1))) ∧
    (∀ q : ℚ, get_proportion expr mp pairs none = .value q → 0 ≤ q ∧ q ≤ 1) := by
  refine ⟨get_proportion_none_eq expr mp pairs, ?_, ?_⟩
  · intro ps i j
    rw [countPairs_append]
    simp [countPairs, tallyPair]
  · intro q hq
    rw [get_proportion_none_eq] at hq
    by_cases hT : ((countPairs expr pairs (0, 0)).2 : Int) < mp
    · rw [if_pos hT] at hq; exact absurd hq (by simp)
    · rw [if_neg hT] at hq
      injection hq with hq
      subst hq
      have hFT : (countPairs expr pairs (0, 0)).1 ≤ (countPairs expr pairs (0, 0)).2 :=
        countPairs_le expr pairs (0, 0) (le_refl 0)
      have hT1 : 0 < (countPairs expr pairs (0, 0)).2 := by omega
      have hT1q : (0 : ℚ) < ((countPairs expr pairs (0, 0)).2 : ℚ) := by
        exact_mod_cast hT1
      constructor
      · positivity
      · rw [div_le_one hT1q]
        exact_mod_cast hFT

/-- Witness for C2 at the specification's end-to-end example: subset
`[5, 3, 3, 1]`, pairs `(0,1), (1,2), (2,3)`, `minpairs = 2` gives the
proportion `1`, which lies in `[0, 1]`. -/
theorem claim_scorer_definition_witness :
    (0 : ℚ) ≤ 1 ∧ (1 : ℚ) ≤ 1 :=
  (claim_scorer_definition [(5 : ℚ), 3, 3, 1] 2 (by norm_num)
    [(0, 1), (1, 2), (2, 3)]).2.2 1
    (by rw [get_proportion_none_eq]; norm_num [countPairs, tallyPair])

/-- C4.  All-tied input: when every marker pair compares two exactly equal
values, the unthresholded scorer returns `missing` for every positive
`minpairs` (`minpairs` is a positive integer per the interface). -/
theorem claim_all_tied_missing (expr : List ℚ) (mp : Int) (hmp : 1 ≤ mp)
    (pairs : List (Nat × Nat))
    (htied : ∀ p ∈ pairs, expr.getD p.1 0 = expr.getD p.2 0) :
    get_proportion expr mp pairs none = .missing := by
  have hcount : ∀ (ps : List (Nat × Nat)),
      (∀ p ∈ ps, expr.getD p.1 0 = expr.getD p.2 0) →
      ∀ c, countPairs expr ps c = c := by
    intro ps
    induction ps with
    | nil => intro _ c; rfl
    | cons p rest ih =>
      intro h c
      have htp : tallyPair expr p c = c := by
        unfold tallyPair
        rw [if_pos (h p (by simp))]
      rw [countPairs_cons, htp]
      exact ih (fun q hq => h q (by simp [hq])) c
  rw [get_proportion_none_eq, hcount pairs htied (0, 0)]
  rw [if_pos (by omega)]

/-- Witness for C4: the all-tied subset `[2, 2]` with pair `(0, 1)` is
`missing` at `minpairs = 1`. -/
theorem claim_all_tied_missing_witness :
    get_proportion [(2 : ℚ), 2] 1 [(0, 1)] none = .missing :=
  claim_all_tied_missing [(2 : ℚ), 2] 1 (by norm_num) [(0, 1)] (by decide)

/-- If the thresholded loop runs to completion, the counters it returns
are exactly those of the full fold. -/
theorem scoreLoop_some_inr (expr : List ℚ) (mp : Int) (t : ℚ) :
    ∀ (pairs : List (Nat × Nat)) (c c' : Nat × Nat),
      scoreLoop expr mp (some t) pairs c = Sum.inr c' →
      c' = countPairs expr pairs c := by
  intro pairs
  induction pairs with
  | nil =>
    intro c c' h
    injection h with h
    exact h.symm
  | cons p rest ih =>
    intro c c' h
    have hstep : scoreLoop expr mp (some t) (p :: rest) c =
        (match exitCheck mp t (tallyPair expr p c).1 (tallyPair expr p c).2
            rest.length with
         | some r => Sum.inl r
         | none => scoreLoop expr mp (some t) rest (tallyPair expr p c)) := rfl
    rw [hstep] at h
    rcases hE : exitCheck mp t (tallyPair expr p c).1 (tallyPair expr p c).2
        rest.length with _ | r
    · rw [hE] at h
      rw [countPairs_cons]
      exact ih (tallyPair expr p c) c' h
    · rw [hE] at h
      exact absurd h (by simp)

/-- The thresholded loop exits early with verdict `r` exactly when there is
a first pair index at which the early-termination test fires with verdict
`r`: the counters there are those of the processed prefix, the leftovers
are the pairs not yet consumed, and the test fired at no strictly earlier
index. -/
theorem scoreLoop_inl_iff (expr : List ℚ) (mp : Int) (t : ℚ) :
    ∀ (pairs : List (Nat × Nat)) (c : Nat × Nat) (r : ScoreResult),
      scoreLoop expr mp (some t) pairs c = Sum.inl r ↔
      ∃ n : Nat, n < pairs.length ∧
        exitCheck mp t (countPairs expr (pairs.take (n + 1)) c).1
          (countPairs expr (pairs.take (n + 1)) c).2
          (pairs.length - (n + 1)) = some r ∧
        ∀ m : Nat, m < n →
          exitCheck mp t (countPairs expr (pairs.take (m + 1)) c).1
            (countPairs expr (pairs.take (m + 1)) c).2
            (pairs.length - (m + 1)) = none := by
  intro pairs
  induction pairs with
  | nil =>
    intro c r
    simp [scoreLoop]
  | cons p rest ih =>
    intro c r
    have hstep : scoreLoop expr mp (some t) (p :: rest) c =
        (match exitCheck mp t (tallyPair expr p c).1 (tallyPair expr p c).2
            rest.length with
         | some r' => Sum.inl r'
         | none => scoreLoop expr mp (some t) rest (tallyPair expr p c)) := rfl
    rcases hE : exitCheck mp t (tallyPair expr p c).1 (tallyPair expr p c).2
        rest.length with _ | r'
    · -- no exit at the head pair: shift the index by one
      have hL : scoreLoop expr mp (some t) (p :: rest) c =
          scoreLoop expr mp (some t) rest (tallyPair expr p c) := by
        rw [hstep, hE]
      rw [hL, ih (tallyPair expr p c) r]
      constructor
      · rintro ⟨n, hn, hx, hmin⟩
        refine ⟨n + 1, by simpa using hn, ?_, ?_⟩
        · simpa [List.take_succ_cons, countPairs_cons, Nat.succ_sub_succ]
            using hx
        · intro m hm
          match m with
          | 0 =>
            simpa [List.take_succ_cons, countPairs, Nat.succ_sub_succ] using hE
          | Nat.succ j =>
            simpa [List.take_succ_cons, countPairs_cons, Nat.succ_sub_succ]
              using hmin j (by omega)
      · rintro ⟨n, hn, hx, hmin⟩
        match n with
        | 0 =>
          rw [List.take_succ_cons] at hx
          simp [countPairs, Nat.succ_sub_succ, hE] at hx
        | Nat.succ j =>
          refine ⟨j, by simpa using hn, ?_, ?_⟩
          · simpa [List.take_succ_cons, countPairs_cons, Nat.succ_sub_succ]
              using hx
          · intro m hm
            have := hmin (m + 1) (by omega)
            simpa [List.take_succ_cons, countPairs_cons, Nat.succ_sub_succ]
              using this
    · -- the head pair fired: the loop returns `r'` and index 0 is the witness
      have hL : scoreLoop expr mp (some t) (p :: rest) c = Sum.inl r' := by
        rw [hstep, hE]
      rw [hL]
      constructor
      · intro h
        injection h with h
        subst h
        refine ⟨0, by simp, ?_, fun m hm => absurd hm (Nat.not_lt_zero m)⟩
        simpa [List.take_succ_cons, countPairs, Nat.succ_sub_succ] using hE
      · rintro ⟨n, hn, hx, hmin⟩
        match n with
        | 0 =>
          rw [List.take_succ_cons] at hx
          simp only [List.take_zero, countPairs, List.length_cons,
            Nat.succ_sub_succ, Nat.sub_zero] at hx
          rw [hE] at hx
          injection hx with hx
          rw [hx]
        | Nat.succ j =>
          have := hmin 0 (by omega)
          rw [List.take_succ_cons] at this
          simp only [List.take_zero, countPairs, List.length_cons,
            Nat.succ_sub_succ, Nat.sub_zero] at this
          rw [hE] at this
          exact absurd this (by simp)

/-- C5.  Early-exit mechanics (`minpairs ≥ 1` per the interface): when a
threshold is supplied, the loop returns before consuming all pairs exactly
when the early-termination test — evaluated only where the running
`was_total` is at least `minpairs` and a multiple of 100, with
`leftovers = npairs - (index + 1)` and `maxTotal = was_total + leftovers`,
returning `below` when `(was_first + leftovers + 1) / maxTotal < t` and
`atOrAbove` when `was_first > 0` and `(was_first - 1) / maxTotal > t` —
fires at some first pair index, and the verdict is that of the first
firing; when the test never fires the loop consumes all pairs and returns
the full-fold counters, and with no threshold it never exits early. -/
theorem claim_early_exit_mechanics (expr : List ℚ) (mp : Int) (hmp : 1 ≤ mp)
    (pairs : List (Nat × Nat)) (t : ℚ) :
    (∀ r : ScoreResult, scoreLoop expr mp (some t) pairs (0, 0) = Sum.inl r ↔
      ∃ n : Nat, n < pairs.length ∧
        exitCheck mp t (countPairs expr (pairs.take (n + 1)) (0, 0)).1
          (countPairs expr (pairs.take (n + 1)) (0, 0)).2
          (pairs.length - (n + 1)) = some r ∧
        ∀ m : Nat, m < n →
          exitCheck mp t (countPairs expr (pairs.take (m + 1)) (0, 0)).1
            (countPairs expr (pairs.take (m + 1)) (0, 0)).2
            (pairs.length - (m + 1)) = none) ∧
    (∀ c : Nat × Nat, scoreLoop expr mp (some t) pairs (0, 0) = Sum.inr c →
      c = countPairs expr pairs (0, 0)) ∧
    scoreLoop expr mp none pairs (0, 0) = Sum.inr (countPairs expr pairs (0, 0)) :=
  ⟨fun r => scoreLoop_inl_iff expr mp t pairs (0, 0) r,
   fun c h => scoreLoop_some_inr expr mp t pairs (0, 0) c h,
   scoreLoop_none expr mp pairs (0, 0)⟩

/-- Witness for C5: on the two-element subset `[1, 0]` with one pair and
`minpairs = 1` the test never fires (`was_total = 1` is not a multiple of
100), so the thresholded loop returns the full-fold counters `(1, 1)`. -/
theorem claim_early_exit_mechanics_witness :
    ((1 : Nat), (1 : Nat)) = countPairs [(1 : ℚ), 0] [(0, 1)] (0, 0) :=
  (claim_early_exit_mechanics [(1 : ℚ), 0] 1 (by norm_num) [(0, 1)] 3).2.1
    (1, 1) (by decide)

/-! ### The permutation-trial loop -/

theorem trialBuffers_length {σ : Type} (shuffle : σ → List ℚ → List ℚ × σ) :
    ∀ (n : Nat) (buf : List ℚ) (st : σ),
      (trialBuffers shuffle n buf st).length = n := by
  intro n
  induction n with
  | zero => intro buf st; rfl
  | succ n ih =>
    intro buf st
    have hstep : trialBuffers shuffle (n + 1) buf st =
        (shuffle st buf).1 ::
          trialBuffers shuffle n (shuffle st buf).1 (shuffle st buf).2 := rfl
    rw [hstep, List.length_cons, ih]

/-- The counters accumulated by the trial loop are exactly the counts of
`below` and non-`missing` verdicts among the per-trial scores. -/
theorem runTrials_counts {σ : Type} (shuffle : σ → List ℚ → List ℚ × σ)
    (mp : Int) (pairs : List (Nat × Nat)) (t : ℚ) :
    ∀ (n : Nat) (buf : List ℚ) (st : σ) (b0 t0 : Nat),
      (runTrials shuffle mp pairs t n buf st b0 t0).1 =
        b0 + (trialScores shuffle mp pairs t n buf st).countP
          (fun r => decide (r = .below)) ∧
      (runTrials shuffle mp pairs t n buf st b0 t0).2.1 =
        t0 + (trialScores shuffle mp pairs t n buf st).countP
          (fun r => decide (r ≠ .missing)) := by
  intro n
  induction n with
  | zero =>
    intro buf st b0 t0
    constructor <;> rfl
  | succ n ih =>
    intro buf st b0 t0
    have h1 : runTrials shuffle mp pairs t (n + 1) buf st b0 t0 =
        runTrials shuffle mp pairs t n (shuffle st buf).1 (shuffle st buf).2
          (if get_proportion (shuffle st buf).1 mp pairs (some t) = .below
           then b0 + 1 else b0)
          (if get_proportion (shuffle st buf).1 mp pairs (some t) = .missing
           then t0 else t0 + 1) := rfl
    have h2 : trialScores shuffle mp pairs t (n + 1) buf st =
        get_proportion (shuffle st buf).1 mp pairs (some t) ::
          trialScores shuffle mp pairs t n (shuffle st buf).1 (shuffle st buf).2 :=
      rfl
    rw [h1, h2]
    obtain ⟨ihb, iht⟩ := ih (shuffle st buf).1 (shuffle st buf).2
      (if get_proportion (shuffle st buf).1 mp pairs (some t) = .below
       then b0 + 1 else b0)
      (if get_proportion (shuffle st buf).1 mp pairs (some t) = .missing
       then t0 else t0 + 1)
    rw [ihb, iht, List.countP_cons, List.countP_cons]
    constructor
    · by_cases hr : get_proportion (shuffle st buf).1 mp pairs (some t) = .below <;>
        (simp [hr]; try omega)
    · by_cases hr : get_proportion (shuffle st buf).1 mp pairs (some t) = .missing <;>
        (simp [hr]; try omega)

/-- Each buffer scored during the permutation loop is a permutation of the
buffer the loop started from, provided the external shuffle permutes. -/
theorem trialBuffers_perm {σ : Type} (shuffle : σ → List ℚ → List ℚ × σ)
    (hsh : ∀ (st : σ) (l : List ℚ), ((shuffle st l).1).Perm l) :
    ∀ (n : Nat) (buf : List ℚ) (st : σ),
      ∀ b ∈ trialBuffers shuffle n buf st, b.Perm buf := by
  intro n
  induction n with
  | zero => intro buf st b hb; simp [trialBuffers] at hb
  | succ n ih =>
    intro buf st b hb
    have hstep : trialBuffers shuffle (n + 1) buf st =
        (shuffle st buf).1 ::
          trialBuffers shuffle n (shuffle st buf).1 (shuffle st buf).2 := rfl
    rw [hstep] at hb
    rcases List.mem_cons.mp hb with h | h
    · rw [h]; exact hsh st buf
    · exact (ih (shuffle st buf).1 (shuffle st buf).2 b h).trans (hsh st buf)

/-- C3.  Permutation Engine per-sample reduction: when the observed
unthresholded score of a sample's subset is `missing`, the sample's output
is `missing` (`none`) and the random state is untouched — no trial is
run; when it is a value `q`, exactly `iter` trials are run (the per-trial
score list has length `iter`), each trial is scored against the threshold
`q`, the valid count is the number of non-`missing` trial scores, the
below count the number of `below` ones, and the output is
`below / valid` when `valid ≥ miniter` and `missing` otherwise
(`miniter ≥ 1` and `iter ≥ 0` per the interface, where both are positive). -/
theorem claim_engine_per_sample {σ : Type} (shuffle : σ → List ℚ → List ℚ × σ)
    (mp : Int) (pairs : List (Nat × Nat)) (nit minit : Int)
    (hnit : 0 ≤ nit) (hminit : 1 ≤ minit) (subset : List ℚ) (st : σ) :
    (get_proportion subset mp pairs none = .missing →
      processSample shuffle mp pairs nit minit subset st = (none, st)) ∧
    (∀ q : ℚ, get_proportion subset mp pairs none = .value q →
      ((trialScores shuffle mp pairs q nit.toNat subset st).length : Int) = nit ∧
      (processSample shuffle mp pairs nit minit subset st).1 =
        (if minit ≤ ((trialScores shuffle mp pairs q nit.toNat subset st).countP
             (fun r => decide (r ≠ .missing)) : Int)
         then some (((trialScores shuffle mp pairs q nit.toNat subset st).countP
             (fun r => decide (r = .below)) : ℚ) /
           ((trialScores shuffle mp pairs q nit.toNat subset st).countP
             (fun r => decide (r ≠ .missing)) : ℚ))
         else none)) := by
  constructor
  · intro h
    unfold processSample
    rw [h]
    rfl
  · intro q hq
    constructor
    · rw [trialScores, List.length_map, trialBuffers_length]
      omega
    · have hps : processSample shuffle mp pairs nit minit subset st =
          (if minit ≤ ((runTrials shuffle mp pairs q nit.toNat subset st 0 0).2.1 : Int)
           then some (((runTrials shuffle mp pairs q nit.toNat subset st 0 0).1 : ℚ) /
             ((runTrials shuffle mp pairs q nit.toNat subset st 0 0).2.1 : ℚ))
           else none,
           (runTrials shuffle mp pairs q nit.toNat subset st 0 0).2.2) := by
        unfold processSample
        rw [hq]
        rfl
      obtain ⟨hb, ht⟩ :=
        runTrials_counts shuffle mp pairs q nit.toNat subset st 0 0
      rw [hps, hb, ht]
      simp

/-- Witness for C3 at a concrete input: with the identity shuffle, subset
`[1, 0]`, one pair, observed score `1`, and `iter = 2`, exactly two trials
are scored. -/
theorem claim_engine_per_sample_witness :
    ((trialScores idShuffle 1 [(0, 1)] 1 2 [(1 : ℚ), 0] ()).length : Int) = 2 :=
  ((claim_engine_per_sample idShuffle 1 [(0, 1)] 2 1 (by norm_num) (by norm_num)
      [(1 : ℚ), 0] ()).2 1
    (by rw [get_proportion_none_eq]; norm_num [countPairs, tallyPair])).1

/-- C9.  Trial-buffer invariant: within one sample's permutation loop the
vector scored at every trial is a rearrangement (same multiset, expressed
as `List.Perm`) of the subset the loop started from — the buffer is
shuffled in place from trial to trial and never restored from the matrix —
and the loop's counters are exactly the `below` / non-`missing` counts of
the scores of those successive buffers. -/
theorem claim_trial_buffer_invariant {σ : Type} (shuffle : σ → List ℚ → List ℚ × σ)
    (hsh : ∀ (st : σ) (l : List ℚ), ((shuffle st l).1).Perm l)
    (mp : Int) (pairs : List (Nat × Nat)) (t : ℚ) (n : Nat)
    (subset : List ℚ) (st : σ) :
    (∀ b ∈ trialBuffers shuffle n subset st, b.Perm subset) ∧
    (runTrials shuffle mp pairs t n subset st 0 0).1 =
      (trialScores shuffle mp pairs t n subset st).countP
        (fun r => decide (r = .below)) ∧
    (runTrials shuffle mp pairs t n subset st 0 0).2.1 =
      (trialScores shuffle mp pairs t n subset st).countP
        (fun r => decide (r ≠ .missing)) := by
  obtain ⟨hb, ht⟩ := runTrials_counts shuffle mp pairs t n subset st 0 0
  exact ⟨trialBuffers_perm shuffle hsh n subset st, by rw [hb]; omega,
    by rw [ht]; omega⟩

/-- Witness for C9 with the identity shuffle on a two-trial loop. -/
theorem claim_trial_buffer_invariant_witness :
    (runTrials idShuffle 1 [(0, 1)] 0 2 [(1 : ℚ), 0] () 0 0).1 =
      (trialScores idShuffle 1 [(0, 1)] 0 2 [(1 : ℚ), 0] ()).countP
        (fun r => decide (r = .below)) :=
  (claim_trial_buffer_invariant idShuffle (fun _ l => List.Perm.refl l) 1
    [(0, 1)] 0 2 [(1 : ℚ), 0] ()).2.1

/-! ### The cascading shuffle utility -/

/-- Full characterization of the column loop of `auto_shuffle` when the
external shuffle permutes: `n` columns, all of the source's length, the
first a shuffle of the source, and each column a shuffle (hence a
permutation) of the immediately preceding one. -/
theorem autoShuffleCols_spec {σ : Type} (shuffle : σ → List ℚ → List ℚ × σ)
    (hsh : ∀ (st : σ) (l : List ℚ), ((shuffle st l).1).Perm l) :
    ∀ (n : Nat) (source : List ℚ) (st : σ),
      (autoShuffleCols shuffle n source st).1.length = n ∧
      (∀ c ∈ (autoShuffleCols shuffle n source st).1, c.length = source.length) ∧
      (∀ c0 ∈ ((autoShuffleCols shuffle n source st).1).head?,
        (∃ s : σ, c0 = (shuffle s source).1) ∧ c0.Perm source) ∧
      List.Chain' (fun a b => (∃ s : σ, b = (shuffle s a).1) ∧ b.Perm a)
        (autoShuffleCols shuffle n source st).1 := by
  intro n
  induction n with
  | zero =>
    intro source st
    refine ⟨rfl, ?_, ?_, ?_⟩ <;> simp [autoShuffleCols]
  | succ n ih =>
    intro source st
    have hstep : (autoShuffleCols shuffle (n + 1) source st).1 =
        (shuffle st source).1 ::
          (autoShuffleCols shuffle n (shuffle st source).1 (shuffle st source).2).1 :=
      rfl
    obtain ⟨ihlen, ihmem, ihhead, ihchain⟩ :=
      ih (shuffle st source).1 (shuffle st source).2
    rw [hstep]
    refine ⟨?_, ?_, ?_, ?_⟩
    · rw [List.length_cons, ihlen]
    · intro c hc
      rcases List.mem_cons.mp hc with h | h
      · rw [h]; exact (hsh st source).length_eq
      · rw [ihmem c h]; exact (hsh st source).length_eq
    · intro c0 hc0
      simp only [List.head?_cons, Option.mem_def, Option.some.injEq] at hc0
      subst hc0
      exact ⟨⟨st, rfl⟩, hsh st source⟩
    · exact List.chain'_cons'.mpr ⟨fun b hb => ihhead b hb, ihchain⟩

/-- C7.  Cascading shuffle: for a positive iteration count `k` the utility
returns `k` columns, every column has the source's length (`v.length`
rows), the first column is the shuffle of the source, and each later
column is the shuffle of — hence holds the same multiset as — the
immediately preceding column. -/
theorem claim_auto_shuffle_cascade {σ : Type} (shuffle : σ → List ℚ → List ℚ × σ)
    (hsh : ∀ (st : σ) (l : List ℚ), ((shuffle st l).1).Perm l)
    (invec : List ℚ) (k : Int) (hk : 1 ≤ k) (st : σ) :
    (((auto_shuffle shuffle invec k st).1.length : Int) = k) ∧
    (∀ c ∈ (auto_shuffle shuffle invec k st).1, c.length = invec.length) ∧
    (∀ c0 ∈ ((auto_shuffle shuffle invec k st).1).head?,
      (∃ s : σ, c0 = (shuffle s invec).1) ∧ c0.Perm invec) ∧
    List.Chain' (fun a b => (∃ s : σ, b = (shuffle s a).1) ∧ b.Perm a)
      (auto_shuffle shuffle invec k st).1 := by
  obtain ⟨h1, h2, h3, h4⟩ := autoShuffleCols_spec shuffle hsh k.toNat invec st
  refine ⟨?_, h2, h3, h4⟩
  show ((autoShuffleCols shuffle k.toNat invec st).1.length : Int) = k
  rw [h1]
  omega

/-- Witness for C7: three cascaded identity shuffles of `[1, 2]` produce
three columns. -/
theorem claim_auto_shuffle_cascade_witness :
    (((auto_shuffle idShuffle [(1 : ℚ), 2] 3 ()).1.length : Int) = 3) :=
  (claim_auto_shuffle_cascade idShuffle (fun _ l => List.Perm.refl l)
    [(1 : ℚ), 2] 3 (by norm_num) ()).1

/-- C8.  Determinism: the embedding makes the random source an explicit
state, the only implicit input of the C++ functions; two invocations of
the engine (or of the cascading shuffle) with identical explicit inputs
and an identical initial random-source state produce identical outputs. -/
theorem claim_determinism {σ : Type} (shuffle : σ → List ℚ → List ℚ × σ)
    (mat : MatrixProvider) (mycells marker1 marker2 used : List Int)
    (nit minit minp : Int) (invec : List ℚ) (k : Int) (st st' : σ)
    (h : st = st') :
    shuffle_scores_internal shuffle mat mycells marker1 marker2 used
        nit minit minp st =
      shuffle_scores_internal shuffle mat mycells marker1 marker2 used
        nit minit minp st' ∧
    auto_shuffle shuffle invec k st = auto_shuffle shuffle invec k st' := by
  subst h
  exact ⟨rfl, rfl⟩

/-- Witness for C8 at a concrete engine input and seed. -/
theorem claim_determinism_witness :
    shuffle_scores_internal idShuffle ⟨1, fun _ _ => 0⟩ [1] [] [] [0] 1 1 1 () =
      shuffle_scores_internal idShuffle ⟨1, fun _ _ => 0⟩ [1] [] [] [0] 1 1 1 () :=
  (claim_determinism idShuffle ⟨1, fun _ _ => 0⟩ [1] [] [] [0] 1 1 1
    [] 1 () () rfl).1

/-! ### Input validation -/

/-- An element of the first of two equally long lists appears as the first
component of a pair of their zip. -/
theorem exists_zip_left {α β : Type} {l1 : List α} {l2 : List β}
    (hlen : l1.length = l2.length) {a : α} (ha : a ∈ l1) :
    ∃ p ∈ l1.zip l2, p.1 = a := by
  obtain ⟨i, hi, rfl⟩ := List.mem_iff_getElem.mp ha
  have hz : i < (l1.zip l2).length := by
    rw [List.length_zip]; omega
  refine ⟨(l1.zip l2)[i], List.getElem_mem hz, ?_⟩
  rw [List.getElem_zip]

/-- An element of the second of two equally long lists appears as the
second component of a pair of their zip. -/
theorem exists_zip_right {α β : Type} {l1 : List α} {l2 : List β}
    (hlen : l1.length = l2.length) {b : β} (hb : b ∈ l2) :
    ∃ p ∈ l1.zip l2, p.2 = b := by
  obtain ⟨i, hi, rfl⟩ := List.mem_iff_getElem.mp hb
  have hz : i < (l1.zip l2).length := by
    rw [List.length_zip]; omega
  refine ⟨(l1.zip l2)[i], List.getElem_mem hz, ?_⟩
  rw [List.getElem_zip]

/-- The engine returns a validation error exactly when the marker lists
have different lengths, some marker index lies outside
`[0, used.length)`, or some used index lies outside `[0, ngenes)` — and
otherwise returns a normal (`ok`) output. -/
theorem shuffle_scores_error_iff {σ : Type} (shuffle : σ → List ℚ → List ℚ × σ)
    (mat : MatrixProvider) (mycells marker1 marker2 used : List Int)
    (nit minit minp : Int) (st : σ) :
    (∃ e : String, shuffle_scores_internal shuffle mat mycells marker1 marker2
        used nit minit minp st = Except.error e) ↔
      (marker1.length ≠ marker2.length ∨
       (∃ m ∈ marker1, m < 0 ∨ (used.length : Int) ≤ m) ∨
       (∃ m ∈ marker2, m < 0 ∨ (used.length : Int) ≤ m) ∨
       (∃ u ∈ used, u < 0 ∨ (mat.ngenes : Int) ≤ u)) := by
  by_cases hlen : marker1.length = marker2.length
  · rcases hf1 : (marker1.zip marker2).find? (fun p =>
        decide (p.1 < 0 ∨ (used.length : Int) ≤ p.1 ∨
                p.2 < 0 ∨ (used.length : Int) ≤ p.2)) with _ | p
    · rcases hf2 : used.find? (fun u =>
          decide (u < 0 ∨ (mat.ngenes : Int) ≤ u)) with _ | u
      · -- every check passes: the call returns `ok` and no disjunct holds
        have hI : shuffle_scores_internal shuffle mat mycells marker1 marker2
            used nit minit minp st =
            Except.ok (engineLoop shuffle mat used
              ((marker1.zip marker2).map (fun p => (p.1.toNat, p.2.toNat)))
              minp nit minit mycells st).1 := by
          unfold shuffle_scores_internal
          rw [if_neg (not_not_intro hlen), hf1, hf2]
        refine iff_of_false ?_ ?_
        · rintro ⟨e, he⟩
          rw [hI] at he
          exact absurd he (by simp)
        · have hzip := List.find?_eq_none.mp hf1
          have hused := List.find?_eq_none.mp hf2
          rintro (h | ⟨m, hm, hbad⟩ | ⟨m, hm, hbad⟩ | ⟨u, hu, hbad⟩)
          · exact h hlen
          · obtain ⟨p, hp, hp1⟩ := exists_zip_left hlen hm
            have := hzip p hp
            simp only [decide_eq_true_eq] at this
            exact this (by rw [hp1]; tauto)
          · obtain ⟨p, hp, hp2⟩ := exists_zip_right hlen hm
            have := hzip p hp
            simp only [decide_eq_true_eq] at this
            exact this (by rw [hp2]; tauto)
          · have := hused u hu
            simp only [decide_eq_true_eq] at this
            exact this hbad
      · -- a used index is out of range
        have hI : shuffle_scores_internal shuffle mat mycells marker1 marker2
            used nit minit minp st =
            Except.error "used gene indices are out of range" := by
          unfold shuffle_scores_internal
          rw [if_neg (not_not_intro hlen), hf1, hf2]
        refine iff_of_true ⟨_, hI⟩ ?_
        have hmem := List.mem_of_find?_eq_some hf2
        have hbad := List.find?_some hf2
        simp only [decide_eq_true_eq] at hbad
        exact Or.inr (Or.inr (Or.inr ⟨u, hmem, hbad⟩))
    · -- a marker index is out of range
      have hI : shuffle_scores_internal shuffle mat mycells marker1 marker2
          used nit minit minp st =
          (if p.1 < 0 ∨ (used.length : Int) ≤ p.1 then
            Except.error "first marker indices are out of range"
           else Except.error "second marker indices are out of range") := by
        unfold shuffle_scores_internal
        rw [if_neg (not_not_intro hlen), hf1]
      have hmem := List.mem_of_find?_eq_some hf1
      have hbad := List.find?_some hf1
      simp only [decide_eq_true_eq] at hbad
      obtain ⟨hm1, hm2⟩ := List.of_mem_zip hmem
      refine iff_of_true ?_ ?_
      · rw [hI]
        by_cases hp : p.1 < 0 ∨ (used.length : Int) ≤ p.1
        · exact ⟨_, if_pos hp⟩
        · exact ⟨_, if_neg hp⟩
      · by_cases hp : p.1 < 0 ∨ (used.length : Int) ≤ p.1
        · exact Or.inr (Or.inl ⟨p.1, hm1, hp⟩)
        · exact Or.inr (Or.inr (Or.inl ⟨p.2, hm2, by tauto⟩))
  · -- mismatched marker lengths
    have hI : shuffle_scores_internal shuffle mat mycells marker1 marker2
        used nit minit minp st =
        Except.error "vectors of markers must be of the same length" := by
      unfold shuffle_scores_internal
      rw [if_pos hlen]
    exact iff_of_true ⟨_, hI⟩ (Or.inl hlen)

/-- C6.  Validation is fatal and precedes all sample processing: the call
produces an error — and therefore no output vector at all — exactly when
the marker lists differ in length, a marker index is negative or at least
`used.length` (so an index equal to `used.length` aborts), or a used index
is negative or at least the feature count (equality aborts); when every
check passes no validation error is raised and an `ok` output is
returned. -/
theorem claim_validation_fatal {σ : Type} (shuffle : σ → List ℚ → List ℚ × σ)
    (mat : MatrixProvider) (mycells marker1 marker2 used : List Int)
    (nit minit minp : Int) (st : σ) :
    (∃ e : String, shuffle_scores_internal shuffle mat mycells marker1 marker2
        used nit minit minp st = Except.error e) ↔
      (marker1.length ≠ marker2.length ∨
       (∃ m ∈ marker1, m < 0 ∨ (used.length : Int) ≤ m) ∨
       (∃ m ∈ marker2, m < 0 ∨ (used.length : Int) ≤ m) ∨
       (∃ u ∈ used, u < 0 ∨ (mat.ngenes : Int) ≤ u)) :=
  shuffle_scores_error_iff shuffle mat mycells marker1 marker2 used
    nit minit minp st

/-- Witness for C6: a marker index equal to `used.length` (here `0`, one
past the end of an empty used list) aborts the call with an error. -/
theorem claim_validation_fatal_witness :
    ∃ e : String, shuffle_scores_internal idShuffle ⟨1, fun _ _ => 0⟩ [] [0] [0]
        [] 1 1 1 () = Except.error e :=
  (claim_validation_fatal idShuffle ⟨1, fun _ _ => 0⟩ [] [0] [0] [] 1 1 1 ()).mpr
    (Or.inr (Or.inl ⟨0, by simp, Or.inr (by simp)⟩))

/-- The sample loop reads the matrix only through the columns `s - 1` for
the requested sample ids `s`: two providers that agree on those columns
drive it to the same outputs. -/
theorem engineLoop_congr {σ : Type} (shuffle : σ → List ℚ → List ℚ × σ)
    (mat mat' : MatrixProvider) (used : List Int) (pairs : List (Nat × Nat))
    (minp nit minit : Int) :
    ∀ (cells : List Int) (st : σ),
      (∀ s ∈ cells, ∀ g : Nat, mat.get_const_col (s - 1) g =
        mat'.get_const_col (s - 1) g) →
      engineLoop shuffle mat used pairs minp nit minit cells st =
        engineLoop shuffle mat' used pairs minp nit minit cells st := by
  intro cells
  induction cells with
  | nil => intro st _; rfl
  | cons c cs ih =>
    intro st h
    have hsub : gatherSubset mat used c = gatherSubset mat' used c := by
      unfold gatherSubset
      exact List.map_congr_left
        (fun u _ => h c (List.mem_cons_self c cs) u.toNat)
    have hstep : ∀ (m : MatrixProvider),
        engineLoop shuffle m used pairs minp nit minit (c :: cs) st =
          ((processSample shuffle minp pairs nit minit
              (gatherSubset m used c) st).1 ::
            (engineLoop shuffle m used pairs minp nit minit cs
              (processSample shuffle minp pairs nit minit
                (gatherSubset m used c) st).2).1,
           (engineLoop shuffle m used pairs minp nit minit cs
            (processSample shuffle minp pairs nit minit
              (gatherSubset m used c) st).2).2) := fun m => rfl
    rw [hstep mat, hstep mat', hsub,
      ih (processSample shuffle minp pairs nit minit
        (gatherSubset mat' used c) st).2
        (fun s hs g => h s (List.mem_cons_of_mem c hs) g)]

/-- The whole engine call depends on the matrix only through its feature
count (used in validation) and the columns `s - 1` of the requested
sample ids. -/
theorem shuffle_scores_internal_congr {σ : Type}
    (shuffle : σ → List ℚ → List ℚ × σ) (mat mat' : MatrixProvider)
    (mycells marker1 marker2 used : List Int) (nit minit minp : Int) (st : σ)
    (hgen : mat.ngenes = mat'.ngenes)
    (hcol : ∀ s ∈ mycells, ∀ g : Nat, mat.get_const_col (s - 1) g =
      mat'.get_const_col (s - 1) g) :
    shuffle_scores_internal shuffle mat mycells marker1 marker2 used
        nit minit minp st =
      shuffle_scores_internal shuffle mat' mycells marker1 marker2 used
        nit minit minp st := by
  by_cases hlen : marker1.length ≠ marker2.length
  · have hI : ∀ m : MatrixProvider, shuffle_scores_internal shuffle m mycells
        marker1 marker2 used nit minit minp st =
        Except.error "vectors of markers must be of the same length" := by
      intro m
      unfold shuffle_scores_internal
      rw [if_pos hlen]
    rw [hI mat, hI mat']
  · rcases hf1 : (marker1.zip marker2).find? (fun p =>
        decide (p.1 < 0 ∨ (used.length : Int) ≤ p.1 ∨
                p.2 < 0 ∨ (used.length : Int) ≤ p.2)) with _ | p
    · rcases hf2 : used.find? (fun u =>
          decide (u < 0 ∨ (mat'.ngenes : Int) ≤ u)) with _ | u
      · have hf2l : used.find? (fun u =>
            decide (u < 0 ∨ (mat.ngenes : Int) ≤ u)) = none := by
          rw [hgen]; exact hf2
        have hI : ∀ (m : MatrixProvider),
            used.find? (fun u => decide (u < 0 ∨ (m.ngenes : Int) ≤ u)) = none →
            shuffle_scores_internal shuffle m mycells marker1 marker2 used
              nit minit minp st =
            Except.ok (engineLoop shuffle m used
              ((marker1.zip marker2).map (fun p => (p.1.toNat, p.2.toNat)))
              minp nit minit mycells st).1 := by
          intro m hf
          unfold shuffle_scores_internal
          rw [if_neg hlen, hf1, hf]
        rw [hI mat hf2l, hI mat' hf2]
        exact congrArg Except.ok (congrArg Prod.fst
          (engineLoop_congr shuffle mat mat' used
            ((marker1.zip marker2).map (fun p => (p.1.toNat, p.2.toNat)))
            minp nit minit mycells st hcol))
      · have hf2l : used.find? (fun u =>
            decide (u < 0 ∨ (mat.ngenes : Int) ≤ u)) = some u := by
          rw [hgen]; exact hf2
        have hI : ∀ (m : MatrixProvider),
            used.find? (fun u => decide (u < 0 ∨ (m.ngenes : Int) ≤ u)) = some u →
            shuffle_scores_internal shuffle m mycells marker1 marker2 used
              nit minit minp st =
            Except.error "used gene indices are out of range" := by
          intro m hf
          unfold shuffle_scores_internal
          rw [if_neg hlen, hf1, hf]
        rw [hI mat hf2l, hI mat' hf2]
    · have hI : ∀ m : MatrixProvider, shuffle_scores_internal shuffle m mycells
          marker1 marker2 used nit minit minp st =
          (if p.1 < 0 ∨ (used.length : Int) ≤ p.1 then
            Except.error "first marker indices are out of range"
           else Except.error "second marker indices are out of range") := by
        intro m
        unfold shuffle_scores_internal
        rw [if_neg hlen, hf1]
      rw [hI mat, hI mat']

/-- C10.  Sample ids are not validated: whether validation fails is
independent of the requested sample-id list, and the engine reads the
matrix only through the provider's column `s - 1` for each requested id
`s` — any integer id, including `0` or one beyond the column count, is
forwarded to the provider without a range check. -/
theorem claim_sample_ids_unvalidated {σ : Type}
    (shuffle : σ → List ℚ → List ℚ × σ) (mat mat' : MatrixProvider)
    (mycells mycells' marker1 marker2 used : List Int)
    (nit minit minp : Int) (st : σ) :
    ((∃ e : String, shuffle_scores_internal shuffle mat mycells marker1 marker2
        used nit minit minp st = Except.error e) ↔
     (∃ e : String, shuffle_scores_internal shuffle mat mycells' marker1 marker2
        used nit minit minp st = Except.error e)) ∧
    (mat.ngenes = mat'.ngenes →
     (∀ s ∈ mycells, ∀ g : Nat, mat.get_const_col (s - 1) g =
       mat'.get_const_col (s - 1) g) →
     shuffle_scores_internal shuffle mat mycells marker1 marker2 used
         nit minit minp st =
       shuffle_scores_internal shuffle mat' mycells marker1 marker2 used
         nit minit minp st) :=
  ⟨(shuffle_scores_error_iff shuffle mat mycells marker1 marker2 used
      nit minit minp st).trans
    (shuffle_scores_error_iff shuffle mat mycells' marker1 marker2 used
      nit minit minp st).symm,
   fun hgen hcol => shuffle_scores_internal_congr shuffle mat mat' mycells
     marker1 marker2 used nit minit minp st hgen hcol⟩

/-- Witness for C10 at the unvalidated sample id `0` (the provider is then
asked for column `-1`). -/
theorem claim_sample_ids_unvalidated_witness :
    shuffle_scores_internal idShuffle ⟨1, fun _ _ => 0⟩ [0] [] [] [] 1 1 1 () =
      shuffle_scores_internal idShuffle ⟨1, fun _ _ => 0⟩ [0] [] [] [] 1 1 1 () :=
  (claim_sample_ids_unvalidated idShuffle ⟨1, fun _ _ => 0⟩ ⟨1, fun _ _ => 0⟩
    [0] [5] [] [] [] 1 1 1 ()).2 rfl (fun _ _ _ => rfl)

end ScranShuffle
